import Mathlib

/-!
Verification of the rtimelog store (`src/store.rs`) and completion helper
(`src/helper.rs`).

Modelling conventions (shallow embedding):
* Rust `String` / `&str` values are modelled as `List Char` (`Str`).
* `chrono::NaiveDateTime` is modelled by the `DateTime` structure below;
  its chronological order is modelled by a strictly monotone numeric key
  (`DateTime.key`), which agrees with chrono's order on calendar-valid
  values.  Timestamp parsing and formatting with the fixed format string
  `"%Y-%m-%d %H:%M"` are modelled by `parseDateTime` / `formatTimeFmt`.
  The model is faithful for years below 10000 (chrono would print a sign
  for larger years); all theorems that need formatting restrict to that
  range.
* Rust panics are modelled as the `Except.error` branch; functions doing
  file I/O take an explicit file-system map `FS`, and the wall clock of
  `Timelog::add` is passed as an explicit argument.
* Printed warnings (`eprintln!`) have no observable effect in the model.
-/

abbrev Str := List Char

/-- Model of `str::trim`: drop whitespace from both ends.  (Rust trims the
Unicode `White_Space` class; `Char.isWhitespace` covers the ASCII part,
which is all the log format produces.) -/
def trim (l : Str) : Str :=
  ((l.dropWhile Char.isWhitespace).reverse.dropWhile Char.isWhitespace).reverse

/-- Model of the final `\r`-stripping that `str::lines` applies to each
`\n`-terminated line. -/
def stripTrailCR (l : Str) : Str :=
  match l.getLast? with
  | some c => if c = '\r' then l.dropLast else l
  | none => l

/-- Accumulator worker for `strLines`; `cur` is the current line read so far. -/
def strLinesAcc : Str → Str → List Str
  | cur, [] => if cur = [] then [] else [cur]
  | cur, c :: rest =>
    if c = '\n' then stripTrailCR cur :: strLinesAcc [] rest
    else strLinesAcc (cur ++ [c]) rest

/-- Model of `str::lines`: split on `'\n'`, dropping one trailing `'\r'`
from each terminated line; a final unterminated line is kept as is, and a
trailing newline does not produce an empty final line. -/
def strLines (s : Str) : List Str := strLinesAcc [] s

/-- Model of `str::split_once(": ")`: split at the first occurrence of
colon-space, returning the pieces before and after it. -/
def splitOnceCS : Str → Option (Str × Str)
  | c :: d :: rest =>
    if c = ':' ∧ d = ' ' then some ([], rest)
    else Option.map (fun p => (c :: p.1, p.2)) (splitOnceCS (d :: rest))
  | _ => none

/-- Model of `str::starts_with` (first argument is the string, second the
pattern). -/
def strStartsWith : Str → Str → Bool
  | _, [] => true
  | [], _ :: _ => false
  | c :: s, d :: p => (c == d) && strStartsWith s p

/-- Model of `str::contains` with a string pattern. -/
def strContains : Str → Str → Bool
  | [], p => strStartsWith [] p
  | c :: t, p => strStartsWith (c :: t) p || strContains t p

/-- Model of `s.split(sep).next().unwrap()`: the prefix of `s` before the
first occurrence of the (non-empty) pattern `sep`, or all of `s` when the
pattern does not occur. -/
def takeUntilSub (sep : Str) : Str → Str
  | [] => []
  | c :: t => if strStartsWith (c :: t) sep = true then [] else c :: takeUntilSub sep t

/-! ## Date and time model -/

/-- Model of `chrono::NaiveDate` (proleptic Gregorian calendar date). -/
@[ext] structure Date where
  year : Nat
  month : Nat
  day : Nat
deriving DecidableEq

/-- Model of `chrono::NaiveDateTime`. -/
@[ext] structure DateTime where
  date : Date
  hour : Nat
  minute : Nat
  second : Nat
deriving DecidableEq

/-- Numeric key embedding dates; strictly monotone in (year, month, day)
for calendar-valid dates (month < 16, day < 32). -/
def Date.key (d : Date) : Nat := (d.year * 16 + d.month) * 32 + d.day

/-- Numeric key embedding date-times; on calendar-valid values its order
is exactly chrono's chronological order on `NaiveDateTime`. -/
def DateTime.key (t : DateTime) : Nat :=
  ((t.date.key * 24 + t.hour) * 60 + t.minute) * 60 + t.second

/-- Model of `<=` on `NaiveDateTime`. -/
def dtLe (a b : DateTime) : Prop := a.key ≤ b.key

/-- Model of `<` on `NaiveDateTime`. -/
def dtLt (a b : DateTime) : Prop := a.key < b.key

instance (a b : DateTime) : Decidable (dtLe a b) :=
  inferInstanceAs (Decidable (a.key ≤ b.key))

instance (a b : DateTime) : Decidable (dtLt a b) :=
  inferInstanceAs (Decidable (a.key < b.key))

/-- Model of `NaiveDate::and_hms`. -/
def Date.and_hms (d : Date) (h m s : Nat) : DateTime := ⟨d, h, m, s⟩

/-- Gregorian leap-year rule, as used by chrono. -/
def isLeap (y : Nat) : Prop := (y % 4 = 0 ∧ y % 100 ≠ 0) ∨ y % 400 = 0

instance (y : Nat) : Decidable (isLeap y) :=
  inferInstanceAs (Decidable ((y % 4 = 0 ∧ y % 100 ≠ 0) ∨ y % 400 = 0))

/-- Days in a month of the proleptic Gregorian calendar. -/
def daysInMonth (y m : Nat) : Nat :=
  if m = 2 then (if isLeap y then 29 else 28)
  else if m = 4 ∨ m = 6 ∨ m = 9 ∨ m = 11 then 30
  else 31

/-- Calendar validity of a date (the invariant `chrono::NaiveDate` keeps
by construction). -/
def ValidDate (d : Date) : Prop :=
  1 ≤ d.month ∧ d.month ≤ 12 ∧ 1 ≤ d.day ∧ d.day ≤ daysInMonth d.year d.month

instance (d : Date) : Decidable (ValidDate d) :=
  inferInstanceAs (Decidable (_ ∧ _ ∧ _ ∧ _))

/-- Validity of a date-time (the invariant `chrono::NaiveDateTime` keeps
by construction). -/
def ValidDT (t : DateTime) : Prop :=
  ValidDate t.date ∧ t.hour ≤ 23 ∧ t.minute ≤ 59 ∧ t.second ≤ 59

instance (t : DateTime) : Decidable (ValidDT t) :=
  inferInstanceAs (Decidable (_ ∧ _ ∧ _ ∧ _))

/-! ## Formatting and parsing with `TIME_FMT = "%Y-%m-%d %H:%M"` -/

/-- The decimal digit character for `d` (`d` is always reduced mod 10 at
use sites). -/
def digitChar (d : Nat) : Char := Char.ofNat (48 + d)

/-- Numeric value of a digit character. -/
def dval (c : Char) : Nat := c.toNat - 48

/-- Two-digit zero-padded decimal rendering (`%m`, `%d`, `%H`, `%M`). -/
def pad2 (n : Nat) : Str := [digitChar (n / 10 % 10), digitChar (n % 10)]

/-- Four-digit zero-padded decimal rendering (`%Y`, faithful to chrono for
years below 10000). -/
def pad4 (n : Nat) : Str :=
  [digitChar (n / 1000 % 10), digitChar (n / 100 % 10),
   digitChar (n / 10 % 10), digitChar (n % 10)]

/-- Model of `stop.format(TIME_FMT)` with `TIME_FMT = "%Y-%m-%d %H:%M"`. -/
def formatTimeFmt (t : DateTime) : Str :=
  pad4 t.date.year ++ '-' ::
    (pad2 t.date.month ++ '-' ::
      (pad2 t.date.day ++ ' ' ::
        (pad2 t.hour ++ ':' :: pad2 t.minute)))

/-- Greedy bounded digit reader: consume up to `k` further digit
characters, accumulating into `acc` (models chrono's flexible-width
numeric field parsing). -/
def readNum : Nat → Nat → Str → Nat × Str
  | _, acc, [] => (acc, [])
  | 0, acc, s => (acc, s)
  | k + 1, acc, c :: s =>
    if c.isDigit then readNum k (acc * 10 + dval c) s else (acc, c :: s)

/-- Read a numeric field of **at least one** and at most `maxD` digits. -/
def readNumStart (maxD : Nat) (s : Str) : Option (Nat × Str) :=
  match s with
  | c :: s' => if c.isDigit then some (readNum (maxD - 1) (dval c) s') else none
  | [] => none

/-- Require the literal character `c` next. -/
def expect (c : Char) (s : Str) : Option Str :=
  match s with
  | d :: s' => if d = c then some s' else none
  | [] => none

/-- Model of `NaiveDateTime::parse_from_str(time, "%Y-%m-%d %H:%M")`:
numeric fields with flexible zero-padding, literal separators, the whole
input must be consumed, and the calendar validity chrono enforces by
construction is checked at the end.  A successfully parsed value always
has `second = 0` (the format has no seconds field). -/
def parseDateTime (s : Str) : Option DateTime :=
  (readNumStart 4 s).bind fun ys =>
  (expect '-' ys.2).bind fun s2 =>
  (readNumStart 2 s2).bind fun mos =>
  (expect '-' mos.2).bind fun s4 =>
  (readNumStart 2 s4).bind fun das =>
  (expect ' ' das.2).bind fun s6 =>
  (readNumStart 2 s6).bind fun hrs =>
  (expect ':' hrs.2).bind fun s8 =>
  (readNumStart 2 s8).bind fun mis =>
  if mis.2 = [] ∧ 1 ≤ mos.1 ∧ mos.1 ≤ 12 ∧ 1 ≤ das.1 ∧
      das.1 ≤ daysInMonth ys.1 mos.1 ∧ hrs.1 ≤ 23 ∧ mis.1 ≤ 59 then
    some ⟨⟨ys.1, mos.1, das.1⟩, hrs.1, mis.1, 0⟩
  else none

/-! ## The store (`src/store.rs`) -/

/-- Model of `Entry`: a single timelog entry (`stop` timestamp plus free
text `task`).  Equality is structural, as in the derived `PartialEq`. -/
@[ext] structure Entry where
  stop : DateTime
  task : Str
deriving DecidableEq

/-- Model of `impl fmt::Display for Entry`:
`write!(f, "{}: {}", self.stop.format(TIME_FMT), self.task)`. -/
def Entry.display (e : Entry) : Str :=
  formatTimeFmt e.stop ++ ':' :: ' ' :: e.task

/-- Model of `Timelog`: the ordered entries plus the optional backing
file path. -/
@[ext] structure Timelog where
  entries : List Entry
  filename : Option Str
deriving DecidableEq

/-- Model of `Timelog::parse_line`: trim the line, drop it when empty,
split at the first `": "`, parse the left part as a timestamp; lines
failing either step are dropped (the Rust code prints a warning). -/
def Timelog.parse_line (line : Str) : Option Entry :=
  let t := trim line
  if t = [] then none
  else
    match splitOnceCS t with
    | some (time, task) =>
      match parseDateTime time with
      | some dt => some ⟨dt, task⟩
      | none => none
    | none => none

/-- The loop body of `Timelog::parse`: walk the lines, skip unparsable
ones, and fail (Rust: `panic!`) with the offending raw line as soon as a
parsed timestamp is strictly earlier than the previously accepted one. -/
def parseLoop : List Str → Option DateTime → List Entry → Except Str (List Entry)
  | [], _, acc => .ok acc
  | l :: ls, prev, acc =>
    match Timelog.parse_line l with
    | none => parseLoop ls prev acc
    | some e =>
      match prev with
      | some p =>
        if dtLt e.stop p then .error l
        else parseLoop ls (some e.stop) (acc ++ [e])
      | none => parseLoop ls (some e.stop) (acc ++ [e])

/-- Model of `Timelog::parse`.  The panic on a time regression is the
`Except.error` branch, carrying the offending line. -/
def Timelog.parse (raw : Str) : Except Str (List Entry) :=
  parseLoop (strLines raw) none []

/-- The loop body of `Timelog::format_store`: the accumulated output plus
the previous entry's date; a single `'\n'` is pushed before an entry whose
date differs from the previous one's. -/
def formatStep (acc : Str × Option Date) (e : Entry) : Str × Option Date :=
  (acc.1 ++
     (match acc.2 with
      | some p => if p = e.stop.date then [] else ['\n']
      | none => []) ++
     (Entry.display e ++ ['\n']),
   some e.stop.date)

/-- Model of `Timelog::format_store`. -/
def Timelog.format_store (tl : Timelog) : Str :=
  (tl.entries.foldl formatStep ([], none)).1

/-- Model of `Timelog::get_day`: filter the entries by
`day.and_hms(0,0,0) <= e.stop && e.stop < day.and_hms(23,59,59)`,
keeping the stored order. -/
def Timelog.get_day (tl : Timelog) (day : Date) : List Entry :=
  tl.entries.filter fun e =>
    decide (dtLe (Date.and_hms day 0 0 0) e.stop) &&
    decide (dtLt e.stop (Date.and_hms day 23 59 59))

/-- Model of `Timelog::add`; the wall clock (`Local::now()`) is passed as
the explicit argument `now`. -/
def Timelog.add (tl : Timelog) (task : Str) (now : DateTime) : Timelog :=
  { tl with entries := tl.entries ++ [⟨now, task⟩] }

/-- Outcome of opening and reading a file, as the store distinguishes it:
success with contents, a not-found error, or any other I/O error. -/
inductive ReadResult where
  | ok (contents : Str)
  | notFound
  | ioError
deriving DecidableEq

/-- The file system visible to the store: an association list from paths
to read outcomes (a path not listed does not exist). -/
abbrev FS := List (Str × ReadResult)

/-- Opening `path` on the file system `fs`. -/
def fsRead (fs : FS) (path : Str) : ReadResult :=
  (fs.lookup path).getD ReadResult.notFound

/-- Creating/overwriting `path` with `contents`. -/
def fsWrite (fs : FS) (path : Str) (contents : Str) : FS :=
  (path, ReadResult.ok contents) :: fs

/-- Model of `Timelog::read`: contents on success, an empty log when the
file does not exist (the Rust code prints a notice), and a fatal error
(Rust: `panic!`) on any other failure. -/
def Timelog.read (fs : FS) (path : Str) : Except Unit Str :=
  match fsRead fs path with
  | .ok c => .ok c
  | .notFound => .ok []
  | .ioError => .error ()

/-- Model of `Timelog::new_from_file`: parse what `read` yields and set
the backing path.  Failures of `read` or `parse` are the panics of the
Rust code. -/
def Timelog.new_from_file (fs : FS) (path : Str) : Except Unit Timelog :=
  match Timelog.read fs path with
  | .ok c =>
    match Timelog.parse c with
    | .ok es => .ok ⟨es, some path⟩
    | .error _ => .error ()
  | .error _ => .error ()

/-- Model of `Timelog::save`: fatal (Rust: `assert!`) without a backing
path, otherwise overwrite that path's contents with `format_store`'s
output.  Write faults of the OS are outside the model (the file system
map is total). -/
def Timelog.save (tl : Timelog) (fs : FS) : Except Unit FS :=
  match tl.filename with
  | none => .error ()
  | some p => .ok (fsWrite fs p tl.format_store)

/-! ## The completion helper (`src/helper.rs`) -/

/-- Model of `TimelogHelper`: the candidate pool, in `VecDeque` order. -/
@[ext] structure TimelogHelper where
  entries : List Str
deriving DecidableEq

/-- Model of `TimelogHelper::add`: push the label at the back unless it
is already present. -/
def TimelogHelper.add (h : TimelogHelper) (entry : Str) : TimelogHelper :=
  if entry ∈ h.entries then h else ⟨h.entries ++ [entry]⟩

/-- Model of `impl From<&Timelog> for TimelogHelper`: every entry's task
label, deduplicated through a `HashSet`.  The hash set's iteration order
is unspecified in Rust; `List.dedup` is the deterministic stand-in, and
all theorems use only membership and duplicate-freeness. -/
def TimelogHelper.from_timelog (tl : Timelog) : TimelogHelper :=
  ⟨(tl.entries.map Entry.task).dedup⟩

/-- Model of `TimelogHelper::complete`.  The `HashSet` collection at the
end is modelled by `List.dedup` (set semantics, order unspecified). -/
def TimelogHelper.complete (h : TimelogHelper) (line : Str) (pos : Nat) :
    Nat × List Str :=
  if line = [] ∨ pos < line.length then (pos, [])
  else
    let subproject := strContains line [':']
    let task := strContains line ['-', '-']
    let sep : Option Str :=
      if subproject = false then some [':']
      else if task = false then some ['-', '-']
      else none
    let candidates := h.entries.filterMap fun entry =>
      if strStartsWith entry line = true then
        match sep with
        | some sp => some (trim (takeUntilSub sp entry))
        | none => some entry
      else none
    (0, candidates.dedup)

/-! ## Specification-side definitions

These definitions follow the words of the specification (for the
refinement claims C5 and C6) or package the per-line pipeline of `parse`
for stating C3/C4. -/

/-- Modelled from the spec, for C5: after the first entry, each further
entry is emitted as its display line, preceded by one blank line exactly
when its calendar day differs from the previous entry's day.  `d` is the
previous entry's date. -/
def specGo (d : Date) : List Entry → Str
  | [] => []
  | f :: fs =>
    (if f.stop.date ≠ d then ['\n'] else []) ++
      (Entry.display f ++ '\n' :: specGo f.stop.date fs)

/-- Modelled from the spec, for C5: one line `"<timestamp>: <task>\n"` per
entry in order, a single blank line immediately before the first entry of
each day that differs from the previous entry's day, no leading blank
line. -/
def formatSpec : List Entry → Str
  | [] => []
  | e :: es => Entry.display e ++ '\n' :: specGo e.stop.date es

/-- The entries of the individually parsable lines of `raw`, in original
order: the per-line pipeline of `Timelog::parse` before the monotonicity
check. -/
def accepted (raw : Str) : List Entry :=
  (strLines raw).filterMap Timelog.parse_line

/-- Non-decreasing timestamps, seeded with the previously accepted
timestamp (the `prev` of the `parse` loop). -/
def MonoFrom : Option DateTime → List Entry → Prop
  | _, [] => True
  | none, e :: es => MonoFrom (some e.stop) es
  | some p, e :: es => dtLe p e.stop ∧ MonoFrom (some e.stop) es

/-- The comparison used by the `parse` loop, as a relation on entries. -/
def stopLe (a b : Entry) : Prop := dtLe a.stop b.stop

instance : DecidableRel stopLe := fun a b =>
  inferInstanceAs (Decidable (dtLe a.stop b.stop))

/-- Modelled from the spec, for C6: the active separator determined by
the current line (`":"` when the line has no `':'`, else `"--"` when it
has no `"--"`, else none). -/
def activeSep (line : Str) : Option Str :=
  if strContains line [':'] = false then some [':']
  else if strContains line ['-', '-'] = false then some ['-', '-']
  else none

/-- Modelled from the spec (amended), for C6: the suggestion produced from
a matching pool label — with an active separator, the part of the label
before its first occurrence (the whole label when it does not occur),
trimmed; without one, the label verbatim. -/
def suggestionOf (sep : Option Str) (label : Str) : Str :=
  match sep with
  | some sp => trim (takeUntilSub sp label)
  | none => label

/-- A task label that the canonical format serializes losslessly: it is
non-empty, contains no newline, and does not end in whitespace.  Every
label produced by `parse_line` has this shape. -/
def GoodTaskEnd : Str → Bool
  | t =>
    match t.getLast? with
    | some c => !c.isWhitespace
    | none => false

/-- Task-label sanity for the round trip. -/
def GoodTask (t : Str) : Prop := t ≠ [] ∧ '\n' ∉ t ∧ GoodTaskEnd t = true

instance (t : Str) : Decidable (GoodTask t) :=
  inferInstanceAs (Decidable (_ ∧ _ ∧ _))

/-- An entry that the canonical format serializes losslessly: a
calendar-valid minute-precision timestamp with a four-digit year, and a
well-shaped task label. -/
def GoodEntry (e : Entry) : Prop :=
  ValidDT e.stop ∧ e.stop.date.year < 10000 ∧ e.stop.second = 0 ∧ GoodTask e.task

instance (e : Entry) : Decidable (GoodEntry e) :=
  inferInstanceAs (Decidable (_ ∧ _ ∧ _ ∧ _))

deriving instance DecidableEq for Except

/-- No `": "` occurs inside the list (used to locate the first `": "` of a
display line at the separator the formatter inserted). -/
def PF : Str → Prop
  | c :: d :: rest => ¬(c = ':' ∧ d = ' ') ∧ PF (d :: rest)
  | _ => True

instance chainStopLeDecidable : (l : List Entry) → Decidable (List.Chain' stopLe l)
  | [] => isTrue trivial
  | [_] => isTrue List.Chain.nil
  | _a :: b :: l =>
    @decidable_of_iff _ _ List.chain'_cons.symm
      (@instDecidableAnd _ _ inferInstance (chainStopLeDecidable (b :: l)))

/-! ## Lemmas: digits, numeric fields, timestamp round trip -/

theorem digitChar_facts (d : Nat) (h : d < 10) :
    (digitChar d).isDigit = true ∧ dval (digitChar d) = d ∧
    (digitChar d).isWhitespace = false ∧ digitChar d ≠ ':' ∧
    digitChar d ≠ ' ' ∧ digitChar d ≠ '\n' := by
  interval_cases d <;> exact (by decide)

theorem mod10_lt (m : Nat) : m % 10 < 10 := Nat.mod_lt _ (by omega)

theorem dc_isDigit (m : Nat) : (digitChar (m % 10)).isDigit = true :=
  (digitChar_facts _ (mod10_lt m)).1

theorem dc_dval (m : Nat) : dval (digitChar (m % 10)) = m % 10 :=
  (digitChar_facts _ (mod10_lt m)).2.1

theorem dc_not_ws (m : Nat) : (digitChar (m % 10)).isWhitespace = false :=
  (digitChar_facts _ (mod10_lt m)).2.2.1

theorem dc_ne_colon (m : Nat) : digitChar (m % 10) ≠ ':' :=
  (digitChar_facts _ (mod10_lt m)).2.2.2.1

theorem dc_ne_space (m : Nat) : digitChar (m % 10) ≠ ' ' :=
  (digitChar_facts _ (mod10_lt m)).2.2.2.2.1

theorem dc_ne_nl (m : Nat) : digitChar (m % 10) ≠ '\n' :=
  (digitChar_facts _ (mod10_lt m)).2.2.2.2.2

theorem readNum_zero (acc : Nat) (s : Str) : readNum 0 acc s = (acc, s) := by
  cases s <;> simp [readNum]

theorem readNumStart_pad2 (n : Nat) (h : n < 100) (s : Str) :
    readNumStart 2 (pad2 n ++ s) = some (n, s) := by
  have h1 : n / 10 % 10 = n / 10 := Nat.mod_eq_of_lt (by omega)
  simp only [pad2, List.cons_append, List.nil_append, readNumStart, dc_isDigit,
    if_true, readNum, dc_dval, readNum_zero, Option.some.injEq, Prod.mk.injEq]
  constructor
  · omega
  · trivial

theorem readNumStart_pad4 (n : Nat) (h : n < 10000) (s : Str) :
    readNumStart 4 (pad4 n ++ s) = some (n, s) := by
  simp only [pad4, List.cons_append, List.nil_append, readNumStart, dc_isDigit,
    if_true, readNum, dc_dval, readNum_zero, Option.some.injEq, Prod.mk.injEq]
  constructor
  · omega
  · trivial

theorem readNumStart_pad2_nil (n : Nat) (h : n < 100) :
    readNumStart 2 (pad2 n) = some (n, []) := by
  have := readNumStart_pad2 n h []
  simpa using this

theorem expect_cons (c : Char) (s : Str) : expect c (c :: s) = some s := by
  simp [expect]

theorem daysInMonth_le (y m : Nat) : daysInMonth y m ≤ 31 := by
  unfold daysInMonth
  split <;> split <;> omega

theorem parseDateTime_format (t : DateTime) (hv : ValidDT t)
    (hy : t.date.year < 10000) (hs : t.second = 0) :
    parseDateTime (formatTimeFmt t) = some t := by
  obtain ⟨⟨hm1, hm2, hd1, hd2⟩, hh, hmi, _⟩ := hv
  have hmo : t.date.month < 100 := by omega
  have hda : t.date.day < 100 := by
    have := daysInMonth_le t.date.year t.date.month
    omega
  have hho : t.hour < 100 := by omega
  have hmin : t.minute < 100 := by omega
  rw [formatTimeFmt, parseDateTime,
    readNumStart_pad4 _ hy, Option.some_bind, expect_cons, Option.some_bind,
    readNumStart_pad2 _ hmo, Option.some_bind, expect_cons, Option.some_bind,
    readNumStart_pad2 _ hda, Option.some_bind, expect_cons, Option.some_bind,
    readNumStart_pad2 _ hho, Option.some_bind, expect_cons, Option.some_bind,
    readNumStart_pad2_nil _ hmin, Option.some_bind]
  rw [if_pos ⟨rfl, hm1, hm2, hd1, hd2, hh, hmi⟩]
  obtain ⟨⟨y, mo, da⟩, h, mi, s⟩ := t
  simp at hs
  simp [hs]

/-! ## Lemmas: trimming, line splitting, separator search -/

theorem dropWhile_eq_self_of_head (p : Char → Bool) (l : Str)
    (h : ∀ c, l.head? = some c → p c = false) : l.dropWhile p = l := by
  cases l with
  | nil => rfl
  | cons c t =>
    have := h c rfl
    simp [List.dropWhile, this]

theorem trim_eq_self (l : Str)
    (h1 : ∀ c, l.head? = some c → c.isWhitespace = false)
    (h2 : ∀ c, l.getLast? = some c → c.isWhitespace = false) : trim l = l := by
  unfold trim
  rw [dropWhile_eq_self_of_head _ _ h1]
  rw [dropWhile_eq_self_of_head]
  · exact l.reverse_reverse
  · intro c hc
    rw [List.head?_reverse] at hc
    exact h2 c hc

theorem splitOnceCS_append (a b : Str) (h : PF a) :
    splitOnceCS (a ++ ':' :: ' ' :: b) = some (a, b) := by
  induction a with
  | nil => simp [splitOnceCS]
  | cons c a' ih =>
    cases a' with
    | nil =>
      simp only [List.cons_append, List.nil_append, splitOnceCS]
      rw [if_neg (by rintro ⟨h1, h2⟩; exact absurd h2 (by decide))]
      simp [splitOnceCS]
    | cons d a'' =>
      obtain ⟨h1, h2⟩ := h
      simp only [List.cons_append, splitOnceCS]
      rw [if_neg h1]
      have ihh := ih h2
      simp only [List.cons_append] at ihh
      simp only [List.append_eq]
      rw [ihh]
      rfl

theorem strLinesAcc_append (a : Str) (ha : '\n' ∉ a) (s cur : Str) :
    strLinesAcc cur (a ++ '\n' :: s) = stripTrailCR (cur ++ a) :: strLinesAcc [] s := by
  induction a generalizing cur with
  | nil => simp [strLinesAcc]
  | cons c a' ih =>
    have hc : c ≠ '\n' := by
      intro h
      exact ha (h ▸ List.mem_cons_self c a')
    have ha' : '\n' ∉ a' := fun h => ha (List.mem_cons_of_mem _ h)
    simp only [List.cons_append, strLinesAcc, if_neg hc]
    simp only [List.append_eq]
    rw [ih ha']
    simp [List.append_assoc]

theorem strLinesAcc_nl (s : Str) :
    strLinesAcc [] ('\n' :: s) = [] :: strLinesAcc [] s := by
  simp [strLinesAcc, stripTrailCR]

/-! ## Lemmas: a displayed entry line parses back to the entry -/

theorem PF_formatTimeFmt (t : DateTime) : PF (formatTimeFmt t) := by
  simp only [formatTimeFmt, pad4, pad2, List.cons_append, List.nil_append, PF,
    not_and]
  repeat' apply And.intro
  all_goals first
    | trivial
    | (intro h; exact absurd h (dc_ne_colon _))
    | (intro h; exact absurd h (by decide))
    | (intro h; exact dc_ne_space _)

theorem nl_pad2 (n : Nat) : '\n' ∉ pad2 n := by
  intro h
  simp only [pad2, List.mem_cons, List.not_mem_nil, or_false] at h
  rcases h with h | h <;> exact dc_ne_nl _ h.symm

theorem nl_pad4 (n : Nat) : '\n' ∉ pad4 n := by
  intro h
  simp only [pad4, List.mem_cons, List.not_mem_nil, or_false] at h
  rcases h with h | h | h | h <;> exact dc_ne_nl _ h.symm

theorem nl_fmt (t : DateTime) : '\n' ∉ formatTimeFmt t := by
  intro h
  simp only [formatTimeFmt, List.mem_append, List.mem_cons] at h
  rcases h with h | h | h | h | h | h | h | h | h
  all_goals first
    | exact nl_pad4 _ h
    | exact nl_pad2 _ h
    | exact absurd h (by decide)

theorem nl_display (e : Entry) (h : '\n' ∉ e.task) : '\n' ∉ Entry.display e := by
  intro hm
  have : Entry.display e = formatTimeFmt e.stop ++ ':' :: ' ' :: e.task := rfl
  rw [this] at hm
  simp only [List.mem_append, List.mem_cons] at hm
  rcases hm with hm | hm | hm | hm
  · exact nl_fmt _ hm
  · exact absurd hm (by decide)
  · exact absurd hm (by decide)
  · exact h hm

theorem display_head_ws (e : Entry) :
    ∀ c, (Entry.display e).head? = some c → c.isWhitespace = false := by
  intro c hc
  have : Entry.display e =
      digitChar (e.stop.date.year / 1000 % 10) ::
        (pad4 e.stop.date.year).tail ++ '-' ::
          (pad2 e.stop.date.month ++ '-' ::
            (pad2 e.stop.date.day ++ ' ' ::
              (pad2 e.stop.hour ++ ':' :: pad2 e.stop.minute))) ++
        ':' :: ' ' :: e.task := rfl
  rw [this] at hc
  simp only [List.cons_append, List.head?_cons, Option.some.injEq] at hc
  rw [← hc]
  exact dc_not_ws _

theorem display_last (e : Entry) (h : e.task ≠ []) :
    (Entry.display e).getLast? = e.task.getLast? := by
  show (formatTimeFmt e.stop ++ ':' :: ' ' :: e.task).getLast? = _
  rw [List.getLast?_append_of_ne_nil _ (by simp)]
  show (([':', ' '] : Str) ++ e.task).getLast? = _
  rw [List.getLast?_append_of_ne_nil _ h]

theorem display_ne_nil (e : Entry) : Entry.display e ≠ [] := by
  have : Entry.display e =
      digitChar (e.stop.date.year / 1000 % 10) ::
        ((pad4 e.stop.date.year).tail ++ '-' ::
          (pad2 e.stop.date.month ++ '-' ::
            (pad2 e.stop.date.day ++ ' ' ::
              (pad2 e.stop.hour ++ ':' :: pad2 e.stop.minute))) ++
        ':' :: ' ' :: e.task) := rfl
  rw [this]
  exact List.cons_ne_nil _ _

theorem trim_display (e : Entry) (hg : GoodEntry e) :
    trim (Entry.display e) = Entry.display e := by
  apply trim_eq_self
  · exact display_head_ws e
  · intro c hc
    obtain ⟨_, _, _, ht1, _, ht3⟩ := hg
    rw [display_last e ht1] at hc
    simp only [GoodTaskEnd, hc] at ht3
    simpa using ht3

theorem split_display (e : Entry) :
    splitOnceCS (Entry.display e) = some (formatTimeFmt e.stop, e.task) := by
  show splitOnceCS (formatTimeFmt e.stop ++ ':' :: ' ' :: e.task) = _
  rw [splitOnceCS_append _ _ (PF_formatTimeFmt e.stop)]

theorem parse_line_display (e : Entry) (hg : GoodEntry e) :
    Timelog.parse_line (Entry.display e) = some e := by
  have hg2 := hg
  obtain ⟨hv, hy, hs, _⟩ := hg2
  simp only [Timelog.parse_line]
  rw [trim_display e hg, if_neg (display_ne_nil e), split_display]
  simp only [parseDateTime_format e.stop hv hy hs]

/-! ## Lemmas: the formatter loop versus the specification text -/

theorem stripTrailCR_display (e : Entry) (hg : GoodEntry e) :
    stripTrailCR (Entry.display e) = Entry.display e := by
  obtain ⟨_, _, _, ht1, _, ht3⟩ := hg
  have h1 := display_last e ht1
  cases hl : (Entry.display e).getLast? with
  | none => simp [stripTrailCR, hl]
  | some c =>
    have hc : e.task.getLast? = some c := by rw [← h1, hl]
    have hcr : c ≠ '\r' := by
      intro h
      simp only [GoodTaskEnd, hc] at ht3
      rw [h] at ht3
      simp at ht3
    simp [stripTrailCR, hl, hcr]

theorem foldl_formatStep (es : List Entry) :
    ∀ (acc : Str) (d : Date),
      (es.foldl formatStep (acc, some d)).1 = acc ++ specGo d es := by
  induction es with
  | nil =>
    intro acc d
    simp [specGo]
  | cons f fs ih =>
    intro acc d
    simp only [List.foldl_cons, formatStep]
    rw [ih]
    by_cases h : d = f.stop.date
    · rw [if_pos h]
      have h' : ¬f.stop.date ≠ d := by simp [h.symm]
      simp [specGo, if_neg h', List.append_assoc]
    · rw [if_neg h]
      have h' : f.stop.date ≠ d := fun hh => h hh.symm
      simp [specGo, if_pos h', List.append_assoc]

theorem format_store_eq_formatSpec (tl : Timelog) :
    Timelog.format_store tl = formatSpec tl.entries := by
  obtain ⟨es, fn⟩ := tl
  cases es with
  | nil => rfl
  | cons e es' =>
    show (List.foldl formatStep (formatStep ([], none) e) es').1 = _
    have h1 : formatStep ([], none) e = (Entry.display e ++ ['\n'], some e.stop.date) := by
      simp [formatStep]
    rw [h1, foldl_formatStep]
    simp [formatSpec, List.append_assoc]

/-! ## Lemmas: parsing the formatted output back -/

theorem parse_line_nil : Timelog.parse_line [] = none := rfl

theorem filterMap_strLinesAcc_specGo (es : List Entry) :
    ∀ (d : Date), (∀ e ∈ es, GoodEntry e) →
      (strLinesAcc [] (specGo d es)).filterMap Timelog.parse_line = es := by
  induction es with
  | nil =>
    intro d _
    simp [specGo, strLinesAcc]
  | cons f fs ih =>
    intro d hg
    have hgf : GoodEntry f := hg f (List.mem_cons_self f fs)
    have hgfs : ∀ e ∈ fs, GoodEntry e := fun e he => hg e (List.mem_cons_of_mem _ he)
    have hnl : '\n' ∉ Entry.display f := nl_display f hgf.2.2.2.2.1
    simp only [specGo]
    by_cases h : f.stop.date ≠ d
    · rw [if_pos h, List.singleton_append, strLinesAcc_nl,
        strLinesAcc_append _ hnl, List.nil_append, stripTrailCR_display f hgf]
      simp only [List.filterMap_cons, parse_line_nil, parse_line_display f hgf]
      rw [ih _ hgfs]
    · rw [if_neg h, List.nil_append,
        strLinesAcc_append _ hnl, List.nil_append, stripTrailCR_display f hgf]
      simp only [List.filterMap_cons, parse_line_display f hgf]
      rw [ih _ hgfs]

theorem filterMap_strLines_formatSpec (es : List Entry)
    (hg : ∀ e ∈ es, GoodEntry e) :
    (strLines (formatSpec es)).filterMap Timelog.parse_line = es := by
  cases es with
  | nil => rfl
  | cons e es' =>
    have hge : GoodEntry e := hg e (List.mem_cons_self e es')
    have hges : ∀ x ∈ es', GoodEntry x := fun x hx => hg x (List.mem_cons_of_mem _ hx)
    have hnl : '\n' ∉ Entry.display e := nl_display e hge.2.2.2.2.1
    show (strLinesAcc [] (Entry.display e ++ '\n' :: specGo e.stop.date es')).filterMap
        Timelog.parse_line = e :: es'
    rw [strLinesAcc_append _ hnl, List.nil_append, stripTrailCR_display e hge]
    simp only [List.filterMap_cons, parse_line_display e hge]
    rw [filterMap_strLinesAcc_specGo es' _ hges]

/-! ## Lemmas: the parse loop, success and failure -/

theorem parseLoop_ok (ls : List Str) :
    ∀ (prev : Option DateTime) (acc : List Entry),
      MonoFrom prev (ls.filterMap Timelog.parse_line) →
      parseLoop ls prev acc = .ok (acc ++ ls.filterMap Timelog.parse_line) := by
  induction ls with
  | nil =>
    intro prev acc _
    simp [parseLoop]
  | cons l ls ih =>
    intro prev acc hm
    cases hl : Timelog.parse_line l with
    | none =>
      simp only [List.filterMap_cons, hl] at hm ⊢
      simp only [parseLoop, hl]
      exact ih prev acc hm
    | some e =>
      simp only [List.filterMap_cons, hl] at hm ⊢
      cases prev with
      | none =>
        simp only [parseLoop, hl]
        simp only [MonoFrom] at hm
        rw [ih (some e.stop) (acc ++ [e]) hm]
        simp
      | some p =>
        simp only [parseLoop, hl]
        obtain ⟨hle, hm'⟩ := hm
        rw [if_neg (by exact Nat.not_lt.mpr hle)]
        rw [ih (some e.stop) (acc ++ [e]) hm']
        simp

theorem parseLoop_error (ls : List Str) :
    ∀ (prev : Option DateTime) (acc : List Entry),
      ¬ MonoFrom prev (ls.filterMap Timelog.parse_line) →
      ∃ l, parseLoop ls prev acc = .error l := by
  induction ls with
  | nil =>
    intro prev acc hm
    simp only [List.filterMap_nil, MonoFrom] at hm
    exact absurd trivial hm
  | cons l ls ih =>
    intro prev acc hm
    cases hl : Timelog.parse_line l with
    | none =>
      simp only [List.filterMap_cons, hl] at hm
      simp only [parseLoop, hl]
      exact ih prev acc hm
    | some e =>
      simp only [List.filterMap_cons, hl] at hm
      cases prev with
      | none =>
        simp only [parseLoop, hl]
        simp only [MonoFrom] at hm
        exact ih (some e.stop) (acc ++ [e]) hm
      | some p =>
        simp only [parseLoop, hl]
        by_cases hlt : dtLt e.stop p
        · rw [if_pos hlt]
          exact ⟨l, rfl⟩
        · rw [if_neg hlt]
          apply ih
          intro hmf
          exact hm ⟨Nat.le_of_not_lt hlt, hmf⟩

theorem monoFrom_some_iff (es : List Entry) :
    ∀ (e : Entry), MonoFrom (some e.stop) es ↔ List.Chain stopLe e es := by
  induction es with
  | nil =>
    intro e
    exact ⟨fun _ => List.Chain.nil, fun _ => trivial⟩
  | cons f fs ih =>
    intro e
    simp only [MonoFrom]
    rw [List.chain_cons]
    exact ⟨fun ⟨h1, h2⟩ => ⟨h1, (ih f).mp h2⟩, fun ⟨h1, h2⟩ => ⟨h1, (ih f).mpr h2⟩⟩

theorem monoFrom_none_iff (es : List Entry) :
    MonoFrom none es ↔ List.Chain' stopLe es := by
  cases es with
  | nil => exact ⟨fun _ => trivial, fun _ => trivial⟩
  | cons e es' =>
    show MonoFrom (some e.stop) es' ↔ _
    exact monoFrom_some_iff es' e

/-! ## Lemmas: the day window versus date equality -/

theorem window_iff_date (d : Date) (t : DateTime) (hd : ValidDate d) (ht : ValidDT t) :
    (dtLe (Date.and_hms d 0 0 0) t ∧ dtLt t (Date.and_hms d 23 59 59)) ↔
      (t.date = d ∧ ¬(t.hour = 23 ∧ t.minute = 59 ∧ t.second = 59)) := by
  have h31d := daysInMonth_le d.year d.month
  have h31t := daysInMonth_le t.date.year t.date.month
  obtain ⟨hm1, hm2, hd1, hd2⟩ := hd
  obtain ⟨⟨tm1, tm2, td1, td2⟩, th, tmi, ts⟩ := ht
  rw [Date.ext_iff]
  simp only [dtLe, dtLt, DateTime.key, Date.key, Date.and_hms]
  omega

/-! ## Claims -/

/-- C1 counterexample: a store built from the empty log by a single `add`
call whose wall-clock time carries seconds (`06:02:30`) does not round
trip — `format_store` prints minutes only, so re-parsing yields `06:02:00`
and the entry lists differ. -/
theorem C1_round_trip_cex :
    Timelog.parse (Timelog.format_store
        (Timelog.add ⟨[], none⟩ ("a".toList) ⟨⟨2022, 6, 9⟩, 6, 2, 30⟩)) ≠
      Except.ok (Timelog.add ⟨[], none⟩ ("a".toList) ⟨⟨2022, 6, 9⟩, 6, 2, 30⟩).entries := by
  decide

/-- C1 (amended): for every store whose entries have calendar-valid
whole-minute timestamps (with a four-digit year) and well-shaped task
labels (non-empty, no newline, no trailing whitespace) — which is the case
for every entry produced by `parse`, though not for every `add` — and
whose timestamps are non-decreasing, parsing the formatted output yields
exactly the original entries, in order. -/
theorem C1_round_trip (es : List Entry) (fn : Option Str)
    (hg : ∀ e ∈ es, GoodEntry e) (hc : List.Chain' stopLe es) :
    Timelog.parse (Timelog.format_store ⟨es, fn⟩) = Except.ok es := by
  unfold Timelog.parse
  rw [format_store_eq_formatSpec]
  have h1 : (strLines (formatSpec es)).filterMap Timelog.parse_line = es :=
    filterMap_strLines_formatSpec es hg
  have h2 : MonoFrom none ((strLines (formatSpec es)).filterMap Timelog.parse_line) := by
    rw [h1]
    exact (monoFrom_none_iff es).mpr hc
  rw [parseLoop_ok _ none [] h2, h1]
  simp

/-- C1 witness: a concrete two-entry store round trips. -/
theorem C1_round_trip_witness :
    GoodEntry ⟨⟨⟨2022, 6, 9⟩, 6, 2, 0⟩, "arrived".toList⟩ ∧
    GoodEntry ⟨⟨⟨2022, 6, 9⟩, 6, 27, 0⟩, "email".toList⟩ ∧
    Timelog.parse (Timelog.format_store ⟨[⟨⟨⟨2022, 6, 9⟩, 6, 2, 0⟩, "arrived".toList⟩,
        ⟨⟨⟨2022, 6, 9⟩, 6, 27, 0⟩, "email".toList⟩], none⟩) =
      Except.ok [⟨⟨⟨2022, 6, 9⟩, 6, 2, 0⟩, "arrived".toList⟩,
        ⟨⟨⟨2022, 6, 9⟩, 6, 27, 0⟩, "email".toList⟩] :=
  ⟨by decide, by decide, C1_round_trip _ none (by decide) (by decide)⟩

/-- C2 counterexample: an entry whose `stop` is `2022-06-09 23:59:59` has
date component `2022-06-09`, yet `get_day` on that date excludes it (the
filter's upper bound `< 23:59:59` is strict), refuting "returns exactly
those entries whose stop date equals `d`". -/
theorem C2_get_day_cex :
    (⟨⟨⟨2022, 6, 9⟩, 23, 59, 59⟩, "a".toList⟩ : Entry).stop.date = ⟨2022, 6, 9⟩ ∧
    (⟨⟨⟨2022, 6, 9⟩, 23, 59, 59⟩, "a".toList⟩ : Entry) ∈
      (⟨[⟨⟨⟨2022, 6, 9⟩, 23, 59, 59⟩, "a".toList⟩], none⟩ : Timelog).entries ∧
    Timelog.get_day ⟨[⟨⟨⟨2022, 6, 9⟩, 23, 59, 59⟩, "a".toList⟩], none⟩ ⟨2022, 6, 9⟩ = [] := by
  decide

/-- C2 (amended): for a calendar-valid date and a store of calendar-valid
timestamps, `get_day d` returns, in stored order and without mutating the
store, exactly the entries whose stop date equals `d` **except** an entry
at the very instant `23:59:59`, which the strict upper bound excludes. -/
theorem C2_get_day_window (tl : Timelog) (d : Date) (hd : ValidDate d)
    (hv : ∀ e ∈ tl.entries, ValidDT e.stop) :
    Timelog.get_day tl d = tl.entries.filter fun e =>
      decide (e.stop.date = d ∧
        ¬(e.stop.hour = 23 ∧ e.stop.minute = 59 ∧ e.stop.second = 59)) := by
  unfold Timelog.get_day
  apply List.filter_congr
  intro e he
  apply Bool.eq_iff_iff.mpr
  simp only [Bool.and_eq_true, decide_eq_true_eq]
  exact window_iff_date d e.stop hd (hv e he)

/-- C2 witness: on a concrete two-day store, `get_day 2022-06-09` keeps
exactly the entry of that day. -/
theorem C2_get_day_window_witness :
    ValidDate ⟨2022, 6, 9⟩ ∧
    Timelog.get_day ⟨[⟨⟨⟨2022, 6, 9⟩, 6, 2, 0⟩, "a".toList⟩,
        ⟨⟨⟨2022, 6, 10⟩, 7, 0, 0⟩, "b".toList⟩], none⟩ ⟨2022, 6, 9⟩ =
      [⟨⟨⟨2022, 6, 9⟩, 6, 2, 0⟩, "a".toList⟩] :=
  ⟨by decide, (C2_get_day_window _ _ (by decide) (by decide)).trans (by decide)⟩

/-- C3: `parse` fails (the Rust code panics) exactly when the sequence of
individually parsable lines is not non-decreasing in timestamp — i.e. some
accepted entry is strictly earlier than the immediately preceding accepted
one; inputs whose accepted entries are non-decreasing never fail, and a
failure produces no entry list at all. -/
theorem C3_parse_fails_iff_regression (raw : Str) :
    (∃ l, Timelog.parse raw = Except.error l) ↔
      ¬ List.Chain' stopLe (accepted raw) := by
  unfold Timelog.parse accepted
  constructor
  · rintro ⟨l, hl⟩ hchain
    rw [parseLoop_ok (strLines raw) none [] ((monoFrom_none_iff _).mpr hchain)] at hl
    exact Except.noConfusion hl
  · intro hchain
    exact parseLoop_error (strLines raw) none []
      (fun hmf => hchain ((monoFrom_none_iff _).mp hmf))

/-- C3 witness: a concrete input whose third line goes back in time makes
`parse` fail. -/
theorem C3_parse_fails_iff_regression_witness :
    ¬ List.Chain' stopLe
      (accepted ("2022-06-09 06:10: tea\n2022-06-08 07:32: huh".toList)) ∧
    Timelog.parse ("2022-06-09 06:10: tea\n2022-06-08 07:32: huh".toList) ≠
      Except.ok (accepted ("2022-06-09 06:10: tea\n2022-06-08 07:32: huh".toList)) :=
  ⟨by decide, fun hok => by
    obtain ⟨l, hl⟩ :=
      (C3_parse_fails_iff_regression
        ("2022-06-09 06:10: tea\n2022-06-08 07:32: huh".toList)).mpr (by decide)
    rw [hok] at hl
    exact Except.noConfusion hl⟩

/-- C4 counterexample: an input mixing valid and invalid lines on which
`parse` does **not** succeed — the two valid lines go back in time, so the
load aborts even though the invalid line alone would merely be dropped. -/
theorem C4_malformed_tolerance_cex :
    Timelog.parse_line ("garbage".toList) = none ∧
    Timelog.parse ("2022-06-09 06:10: tea\ngarbage\n2022-06-08 07:32: huh".toList) =
      Except.error ("2022-06-08 07:32: huh".toList) := by
  decide

/-- C4 (amended): for every input text whose individually parsable lines
have non-decreasing timestamps, `parse` succeeds and returns exactly the
entries of those lines in their original relative order; lines that are
empty after trimming, lack the `": "` separator, or have an unparsable
timestamp are dropped without aborting the load. -/
theorem C4_malformed_tolerance (raw : Str)
    (h : List.Chain' stopLe (accepted raw)) :
    Timelog.parse raw = Except.ok (accepted raw) := by
  unfold Timelog.parse accepted
  have := parseLoop_ok (strLines raw) none []
    ((monoFrom_none_iff _).mpr (by exact h))
  simpa using this

/-- C4 witness: a concrete blob with one invalid line in the middle parses
to exactly the valid lines' entries. -/
theorem C4_malformed_tolerance_witness :
    List.Chain' stopLe
      (accepted ("2022-06-09 06:02: arrived\nnot a line\n2022-06-09 06:27: email".toList)) ∧
    Timelog.parse_line ("not a line".toList) = none ∧
    Timelog.parse ("2022-06-09 06:02: arrived\nnot a line\n2022-06-09 06:27: email".toList) =
      Except.ok (accepted ("2022-06-09 06:02: arrived\nnot a line\n2022-06-09 06:27: email".toList)) :=
  ⟨by decide, by decide, C4_malformed_tolerance _ (by decide)⟩

/-- C5: `format_store` emits one `"<YYYY-MM-DD HH:MM>: <task>\n"` line per
entry in stored order, with a single blank line immediately before the
first entry of each calendar day differing from the previous entry's day,
no blank line within a day, and no leading blank line — i.e. it equals the
specification-side `formatSpec`. -/
theorem C5_format_layout (tl : Timelog) :
    Timelog.format_store tl = formatSpec tl.entries :=
  format_store_eq_formatSpec tl

/-- The body of `complete` past its guard, phrased with the
specification-side `activeSep` and `suggestionOf`. -/
theorem complete_eq (h : TimelogHelper) (line : Str) (pos : Nat)
    (hne : ¬(line = [] ∨ pos < line.length)) :
    h.complete line pos =
      (0, (h.entries.filterMap fun entry =>
        if strStartsWith entry line = true then
          some (suggestionOf (activeSep line) entry)
        else none).dedup) := by
  unfold TimelogHelper.complete
  rw [if_neg hne]
  have harm : (fun entry =>
      if strStartsWith entry line = true then
        match activeSep line with
        | some sp => some (trim (takeUntilSub sp entry))
        | none => some entry
      else none) =
      (fun entry =>
        if strStartsWith entry line = true then
          some (suggestionOf (activeSep line) entry)
        else none) := by
    funext entry
    cases hsep : activeSep line <;> simp [suggestionOf, hsep]
  show (0, (h.entries.filterMap fun entry =>
      if strStartsWith entry line = true then
        match activeSep line with
        | some sp => some (trim (takeUntilSub sp entry))
        | none => some entry
      else none).dedup) = _
  rw [harm]

/-- C6 counterexample: with pool label `" foo"`, line `" f"` (no `':'`, so
the active separator is `":"`), and the separator absent from the label,
the claim predicts the label's full text `" foo"` as the suggestion; the
code trims in that case too and produces `"foo"` instead. -/
theorem C6_complete_cex :
    strContains (" f".toList) (":".toList) = false ∧
    strContains (" foo".toList) (":".toList) = false ∧
    strStartsWith (" foo".toList) (" f".toList) = true ∧
    (TimelogHelper.complete ⟨[" foo".toList]⟩ (" f".toList) 2).2 = ["foo".toList] ∧
    " foo".toList ∉ (TimelogHelper.complete ⟨[" foo".toList]⟩ (" f".toList) 2).2 := by
  decide

/-- C6 (amended): with the cursor at the end of a non-empty line, the
result's replacement start is 0 and its candidate list is duplicate-free
and holds exactly the suggestions of the pool labels starting with the
line, where the suggestion is the part of the label before the first
occurrence of the active separator — the whole label when the separator
does not occur in it — **trimmed of surrounding whitespace** whenever an
active separator exists, and the label verbatim when none exists. -/
theorem C6_complete_suggestions (h : TimelogHelper) (line : Str) (pos : Nat)
    (h1 : line ≠ []) (h2 : pos = line.length) :
    (h.complete line pos).1 = 0 ∧
    (h.complete line pos).2.Nodup ∧
    ∀ s : Str, s ∈ (h.complete line pos).2 ↔
      ∃ l ∈ h.entries, strStartsWith l line = true ∧
        s = suggestionOf (activeSep line) l := by
  have hguard : ¬(line = [] ∨ pos < line.length) := by
    rintro (hg | hg)
    · exact h1 hg
    · omega
  rw [complete_eq h line pos hguard]
  refine ⟨rfl, List.nodup_dedup _, fun s => ?_⟩
  rw [List.mem_dedup, List.mem_filterMap]
  constructor
  · rintro ⟨l, hl, hf⟩
    by_cases hsw : strStartsWith l line = true
    · rw [if_pos hsw] at hf
      exact ⟨l, hl, hsw, (Option.some_inj.mp hf).symm⟩
    · rw [if_neg hsw] at hf
      exact absurd hf (by simp)
  · rintro ⟨l, hl, hsw, rfl⟩
    exact ⟨l, hl, by rw [if_pos hsw]⟩

/-- C6 witness: a concrete pool and line with the cursor at the end. -/
theorem C6_complete_suggestions_witness :
    (TimelogHelper.complete ⟨["ab".toList]⟩ ("a".toList) 1).1 = 0 ∧
    (TimelogHelper.complete ⟨["ab".toList]⟩ ("a".toList) 1).2.Nodup :=
  ⟨(C6_complete_suggestions ⟨["ab".toList]⟩ ("a".toList) 1 (by decide) (by decide)).1,
   (C6_complete_suggestions ⟨["ab".toList]⟩ ("a".toList) 1 (by decide) (by decide)).2.1⟩

/-- C7: when the line is empty or the cursor is strictly inside the line,
`complete` returns no candidates and the given cursor position, and this
is a normal return, not an error. -/
theorem C7_complete_guard (h : TimelogHelper) (line : Str) (pos : Nat)
    (hpre : line = [] ∨ pos < line.length) :
    h.complete line pos = (pos, []) := by
  unfold TimelogHelper.complete
  rw [if_pos hpre]

/-- C7 witness: a mid-line cursor on a concrete pool. -/
theorem C7_complete_guard_witness :
    (0 < ("ab".toList).length) ∧
    TimelogHelper.complete ⟨["ab".toList]⟩ ("ab".toList) 0 = (0, []) :=
  ⟨by decide, C7_complete_guard ⟨["ab".toList]⟩ ("ab".toList) 0 (Or.inr (by decide))⟩

/-- C8: the candidate pool never holds duplicate labels — construction
from a store collects each task label exactly once (its pool is
duplicate-free and holds exactly the stored task labels), `add` of an
already-present label leaves the pool unchanged, `add` is idempotent, and
`add` preserves duplicate-freeness. -/
theorem C8_pool_dedup (tl : Timelog) (h : TimelogHelper) (e : Str)
    (hmem : e ∈ h.entries) :
    (TimelogHelper.from_timelog tl).entries.Nodup ∧
    (∀ s : Str, s ∈ (TimelogHelper.from_timelog tl).entries ↔
      s ∈ tl.entries.map Entry.task) ∧
    h.add e = h ∧
    (∀ (h' : TimelogHelper) (e' : Str), (h'.add e').add e' = h'.add e') ∧
    (∀ (h' : TimelogHelper) (e' : Str), h'.entries.Nodup →
      (h'.add e').entries.Nodup) := by
  refine ⟨List.nodup_dedup _, fun s => List.mem_dedup, ?_, ?_, ?_⟩
  · unfold TimelogHelper.add
    rw [if_pos hmem]
  · intro h' e'
    unfold TimelogHelper.add
    by_cases hm : e' ∈ h'.entries
    · rw [if_pos hm, if_pos hm]
    · rw [if_neg hm]
      show (if e' ∈ h'.entries ++ [e'] then _ else _) = _
      rw [if_pos (by simp)]
  · intro h' e' hnd
    unfold TimelogHelper.add
    by_cases hm : e' ∈ h'.entries
    · rw [if_pos hm]
      exact hnd
    · rw [if_neg hm]
      show (h'.entries ++ [e']).Nodup
      simp [List.nodup_append, hnd, hm]

/-- C8 witness: adding an already-present label to a concrete pool changes
nothing, and construction from the empty store is duplicate-free. -/
theorem C8_pool_dedup_witness :
    ("a".toList ∈ (⟨["a".toList]⟩ : TimelogHelper).entries) ∧
    (TimelogHelper.from_timelog ⟨[], none⟩).entries.Nodup ∧
    TimelogHelper.add ⟨["a".toList]⟩ ("a".toList) = ⟨["a".toList]⟩ :=
  ⟨by decide,
   (C8_pool_dedup ⟨[], none⟩ ⟨["a".toList]⟩ ("a".toList) (by decide)).1,
   (C8_pool_dedup ⟨[], none⟩ ⟨["a".toList]⟩ ("a".toList) (by decide)).2.2.1⟩

/-- C9: `save` fails exactly when no backing location is set; with a
backing location `p` it overwrites `p`'s contents with exactly
`format_store`'s output, leaves every other path untouched, and (being a
pure function of the store) leaves the store's entries unchanged.  OS
write faults are outside the model. -/
theorem C9_save (tl : Timelog) (fs : FS) :
    (Timelog.save tl fs = Except.error () ↔ tl.filename = none) ∧
    (∀ p, tl.filename = some p →
      Timelog.save tl fs = Except.ok (fsWrite fs p tl.format_store) ∧
      fsRead (fsWrite fs p tl.format_store) p = ReadResult.ok tl.format_store ∧
      ∀ q, q ≠ p → fsRead (fsWrite fs p tl.format_store) q = fsRead fs q) := by
  refine ⟨?_, ?_⟩
  · cases hf : tl.filename with
    | none => simp [Timelog.save, hf]
    | some p => simp [Timelog.save, hf]
  · intro p hp
    refine ⟨by simp [Timelog.save, hp], ?_, ?_⟩
    · simp [fsRead, fsWrite, List.lookup]
    · intro q hq
      have hb : (q == p) = false := beq_eq_false_iff_ne.mpr hq
      simp [fsRead, fsWrite, List.lookup, hb]

/-- C9 witness: saving a concrete store with a backing path writes its
formatted output there. -/
theorem C9_save_witness :
    (⟨[], some ("f".toList)⟩ : Timelog).filename = some ("f".toList) ∧
    Timelog.save ⟨[], some ("f".toList)⟩ [] =
      Except.ok (fsWrite [] ("f".toList)
        (Timelog.format_store ⟨[], some ("f".toList)⟩)) :=
  ⟨rfl, ((C9_save ⟨[], some ("f".toList)⟩ []).2 ("f".toList) rfl).1⟩

/-- C10: constructing from a path that does not exist yields a store with
zero entries whose backing location is that path, so the `save`
precondition holds and a subsequent `save` creates the file (with the
empty formatted output); an `ioError`-style read failure, by contrast, is
fatal, and an existing file's contents are parsed. -/
theorem C10_missing_file (fs : FS) (path : Str)
    (h : fsRead fs path = ReadResult.notFound) :
    Timelog.new_from_file fs path = Except.ok ⟨[], some path⟩ ∧
    Timelog.save ⟨[], some path⟩ fs =
      Except.ok (fsWrite fs path (Timelog.format_store ⟨[], some path⟩)) ∧
    fsRead (fsWrite fs path (Timelog.format_store ⟨[], some path⟩)) path =
      ReadResult.ok [] ∧
    (∀ (fs₂ : FS) (p₂ : Str), fsRead fs₂ p₂ = ReadResult.ioError →
      Timelog.new_from_file fs₂ p₂ = Except.error ()) := by
  refine ⟨?_, ?_, ?_, ?_⟩
  · unfold Timelog.new_from_file Timelog.read
    rw [h]
    rfl
  · simp [Timelog.save]
  · simp [fsRead, fsWrite, List.lookup]
    rfl
  · intro fs₂ p₂ h₂
    unfold Timelog.new_from_file Timelog.read
    rw [h₂]

/-- C10 witness: on the empty file system every path is missing, and
construction succeeds with an empty store carrying the path. -/
theorem C10_missing_file_witness :
    fsRead [] ("f".toList) = ReadResult.notFound ∧
    Timelog.new_from_file [] ("f".toList) = Except.ok ⟨[], some ("f".toList)⟩ :=
  ⟨by decide, (C10_missing_file [] ("f".toList) (by decide)).1⟩
